import Mathlib

/-!
Verification of the pileup-row binary codec from `pileup/snp/row.go`.

Bytes are modelled as `Nat` values (< 256 wherever the program writes them);
buffers are `List Nat`.  Go's `uint32`/`uint16`/`byte` fields are modelled as
`Nat` together with a well-formedness predicate carrying the machine bounds.
A Go slice-bounds panic is modelled by `Option.none`: `cutAndAdvance` returns
`none` exactly when the source's `s[offset:offset+pieceLen]` would panic
(taking the slice's capacity to be its length).  The encoder threads an
explicit state (`EncState`: cursor offset, buffer contents, and the row seen
through the `*pileupRow` pointer) so that buffer writes and the absence of row
mutation are both visible in the model.
-/

namespace PileupSnp

/-- One per-read feature record (`perReadFeatures` in the source):
`dist5p`, `fraglen` are `uint16`; `qual`, `strand` are `byte`. -/
structure perReadFeatures where
  dist5p : Nat
  fraglen : Nat
  qual : Nat
  strand : Nat
deriving DecidableEq, Repr

/-- The five per-base-category `[2]uint32` counters, indexed in the source by
`pileup.BaseA, BaseC, BaseG, BaseT, BaseX` (in that order). -/
structure pileupCounts where
  baseA : Nat × Nat
  baseC : Nat × Nat
  baseG : Nat × Nat
  baseT : Nat × Nat
  baseX : Nat × Nat
deriving DecidableEq, Repr

/-- The four per-canonical-base feature slices
(`perRead [pileup.NBase][]perReadFeatures` with `NBase = 4`);
a nil Go slice is modelled as the empty list. -/
structure perReadLists where
  a : List perReadFeatures
  c : List perReadFeatures
  g : List perReadFeatures
  t : List perReadFeatures
deriving DecidableEq, Repr

/-- `pileupPayload` from the source. -/
structure pileupPayload where
  depth : Nat
  counts : pileupCounts
  perRead : perReadLists
deriving DecidableEq, Repr

/-- `pileupRow` from the source. -/
structure pileupRow where
  fieldsPresent : Nat
  refID : Nat
  pos : Nat
  payload : pileupPayload
deriving DecidableEq, Repr

/-- `fieldCounts = 1 << iota` -/
def fieldCounts : Nat := 1
/-- `fieldPerReadA` -/
def fieldPerReadA : Nat := 2
/-- `fieldPerReadC` -/
def fieldPerReadC : Nat := 4
/-- `fieldPerReadG` -/
def fieldPerReadG : Nat := 8
/-- `fieldPerReadT` -/
def fieldPerReadT : Nat := 16
/-- `fieldPerReadAny = fieldPerReadA | fieldPerReadC | fieldPerReadG | fieldPerReadT` -/
def fieldPerReadAny : Nat := fieldPerReadA ||| fieldPerReadC ||| fieldPerReadG ||| fieldPerReadT

/-- The source loop index `b ∈ {0,1,2,3}` selects `perRead[b]`. -/
def perReadLists.get (l : perReadLists) : Fin 4 → List perReadFeatures
  | 0 => l.a
  | 1 => l.c
  | 2 => l.g
  | 3 => l.t

/-- Replace one of the four per-read lists (used only to state claims about
rows that differ in a single list). -/
def perReadLists.set (l : perReadLists) : Fin 4 → List perReadFeatures → perReadLists
  | 0, v => { l with a := v }
  | 1, v => { l with c := v }
  | 2, v => { l with g := v }
  | 3, v => { l with t := v }

/-- `fieldPerReadA << b`, the presence bit for `perRead[b]`. -/
def baseBit (b : Fin 4) : Nat := fieldPerReadA <<< b.val

/-- `binary.LittleEndian.PutUint16`: the two little-endian bytes of `x`. -/
def putUint16LE (x : Nat) : List Nat :=
  [x % 256, x / 256 % 256]

/-- `binary.LittleEndian.PutUint32`: the four little-endian bytes of `x`. -/
def putUint32LE (x : Nat) : List Nat :=
  [x % 256, x / 256 % 256, x / 65536 % 256, x / 16777216 % 256]

/-- `binary.LittleEndian.Uint16` on (at least) two bytes. -/
def getUint16LE (b : List Nat) : Nat :=
  b.getD 0 0 + 256 * b.getD 1 0

/-- `binary.LittleEndian.Uint32` on (at least) four bytes. -/
def getUint32LE (b : List Nat) : Nat :=
  b.getD 0 0 + 256 * b.getD 1 0 + 65536 * b.getD 2 0 + 16777216 * b.getD 3 0

/-- `cutAndAdvance(&offset, s, pieceLen)`: returns `s[offset:offset+pieceLen]`
and the advanced offset, or `none` when the slice expression would panic
(offset or end past the end of `s`). -/
def cutAndAdvance (offset : Nat) (s : List Nat) (pieceLen : Nat) :
    Option (List Nat × Nat) :=
  if offset + pieceLen ≤ s.length then
    some ((s.drop offset).take pieceLen, offset + pieceLen)
  else
    none

/-- The six bytes written for one `perReadFeatures` record:
`dist5p` (2 bytes LE), `fraglen` (2 bytes LE), `qual`, `strand`. -/
def featureBytes (f : perReadFeatures) : List Nat :=
  putUint16LE f.dist5p ++ putUint16LE f.fraglen ++ [f.qual, f.strand]

/-- The 16 header bytes: `fieldsPresent`, `refID`, `pos`, `depth`,
each 4 bytes little-endian. -/
def headerBytes (pr : pileupRow) : List Nat :=
  putUint32LE pr.fieldsPresent ++ putUint32LE pr.refID ++
    putUint32LE pr.pos ++ putUint32LE pr.payload.depth

/-- The 40 count bytes, in the source's fixed order
A-fwd, A-rev, C-fwd, C-rev, G-fwd, G-rev, T-fwd, T-rev, X-fwd, X-rev. -/
def countsBytes (c : pileupCounts) : List Nat :=
  putUint32LE c.baseA.1 ++ putUint32LE c.baseA.2 ++
  putUint32LE c.baseC.1 ++ putUint32LE c.baseC.2 ++
  putUint32LE c.baseG.1 ++ putUint32LE c.baseG.2 ++
  putUint32LE c.baseT.1 ++ putUint32LE c.baseT.2 ++
  putUint32LE c.baseX.1 ++ putUint32LE c.baseX.2

/-- The sequence of `cutAndAdvance` writes one loop iteration of the
marshal per-read section performs for the list `l` guarded by presence bit
`bit`: a 4-byte length, then one 6-byte piece per record; nothing when the
bit is unset. -/
def basePieces (fp : Nat) (l : List perReadFeatures) (bit : Nat) :
    List (List Nat) :=
  if fp &&& bit ≠ 0 then putUint32LE l.length :: l.map featureBytes else []

/-- The complete sequence of `cutAndAdvance` writes `marshalPileupRow`
performs, in source order: 16-byte header; 40-byte counts block iff the
`fieldCounts` bit is set; then, iff any per-read bit is set, the four
per-base sections for `b = 0,1,2,3` (bit `fieldPerReadA << b`). -/
def encPieces (pr : pileupRow) : List (List Nat) :=
  [headerBytes pr]
  ++ (if pr.fieldsPresent &&& fieldCounts ≠ 0 then
        [countsBytes pr.payload.counts] else [])
  ++ (if pr.fieldsPresent &&& fieldPerReadAny ≠ 0 then
        basePieces pr.fieldsPresent pr.payload.perRead.a fieldPerReadA
        ++ basePieces pr.fieldsPresent pr.payload.perRead.c fieldPerReadC
        ++ basePieces pr.fieldsPresent pr.payload.perRead.g fieldPerReadG
        ++ basePieces pr.fieldsPresent pr.payload.perRead.t fieldPerReadT
      else [])

/-- `bytesReq` as computed up front by `marshalPileupRow`: 16, plus 40 when
the counts bit is set, plus `4 + 6*len(perRead[b])` for every set per-read
bit (the whole per-read sum guarded by `fieldPerReadAny`). -/
def bytesReq (pr : pileupRow) : Nat :=
  16
  + (if pr.fieldsPresent &&& fieldCounts ≠ 0 then 40 else 0)
  + (if pr.fieldsPresent &&& fieldPerReadAny ≠ 0 then
       (if pr.fieldsPresent &&& fieldPerReadA ≠ 0 then
          4 + 6 * pr.payload.perRead.a.length else 0)
     + (if pr.fieldsPresent &&& fieldPerReadC ≠ 0 then
          4 + 6 * pr.payload.perRead.c.length else 0)
     + (if pr.fieldsPresent &&& fieldPerReadG ≠ 0 then
          4 + 6 * pr.payload.perRead.g.length else 0)
     + (if pr.fieldsPresent &&& fieldPerReadT ≠ 0 then
          4 + 6 * pr.payload.perRead.t.length else 0)
     else 0)

/-- Overwrite `t` starting at `off` with `piece` (the effect of writing into
the window `cutAndAdvance` returned). -/
def writeAt (t : List Nat) (off : Nat) (piece : List Nat) : List Nat :=
  t.take off ++ piece ++ t.drop (off + piece.length)

/-- Encoder state: cursor offset, output buffer `t`, and the row reachable
through the `*pileupRow` argument (threaded so that mutation of the row, if
the source performed any, would be visible). -/
structure EncState where
  offset : Nat
  t : List Nat
  pr : pileupRow
deriving DecidableEq, Repr

/-- One write step: `cutAndAdvance` on `t` (panic → `none`) followed by
filling the returned window. -/
def encStep (st : EncState) (piece : List Nat) : Option EncState :=
  if st.offset + piece.length ≤ st.t.length then
    some { st with
           offset := st.offset + piece.length
           t := writeAt st.t st.offset piece }
  else
    none

/-- Run a sequence of write steps. -/
def encFold (st : EncState) : List (List Nat) → Option EncState
  | [] => some st
  | p :: ps => (encStep st p).bind fun st1 => encFold st1 ps

/-- `marshalPileupRow` up to its final `return`: computes `bytesReq`,
reuses `scratch` when large enough (otherwise allocates a zeroed buffer of
exactly `bytesReq` bytes), then performs all writes. -/
def marshalPileupRowSt (scratch : List Nat) (pr : pileupRow) :
    Option EncState :=
  let req := bytesReq pr
  let t := if scratch.length < req then List.replicate req 0 else scratch
  encFold { offset := 0, t := t, pr := pr } (encPieces pr)

/-- `marshalPileupRow(scratch, p)`: returns `(t, nil)`; `none` models a
panic (which we prove never happens). The `Option String` is the `error`
result, always `nil` in the source. -/
def marshalPileupRow (scratch : List Nat) (pr : pileupRow) :
    Option (List Nat × Option String) :=
  (marshalPileupRowSt scratch pr).map fun st => (st.t, none)

/-- The bytes the encoder emits (the concatenation of all its writes). -/
def encBytes (pr : pileupRow) : List Nat :=
  (encPieces pr).flatten

/-- All-zero counts block (the Go zero value of `[5][2]uint32`). -/
def zeroCounts : pileupCounts :=
  { baseA := (0, 0), baseC := (0, 0), baseG := (0, 0)
    baseT := (0, 0), baseX := (0, 0) }

/-- Rebuild the counts block from the 40-byte window, in the same fixed
order the decoder reads it. -/
def countsFromBytes (b : List Nat) : pileupCounts :=
  { baseA := (getUint32LE b, getUint32LE (b.drop 4))
    baseC := (getUint32LE (b.drop 8), getUint32LE (b.drop 12))
    baseG := (getUint32LE (b.drop 16), getUint32LE (b.drop 20))
    baseT := (getUint32LE (b.drop 24), getUint32LE (b.drop 28))
    baseX := (getUint32LE (b.drop 32), getUint32LE (b.drop 36)) }

/-- Read `n` consecutive 6-byte feature records (the decoder's inner loop
filling `newFeatures`), returning the list and the advanced offset. -/
def readFeatures (inBuf : List Nat) :
    Nat → Nat → Option (List perReadFeatures × Nat)
  | offset, 0 => some ([], offset)
  | offset, n + 1 => do
    let (src, off1) ← cutAndAdvance offset inBuf 6
    let (rest, off2) ← readFeatures inBuf off1 n
    pure ({ dist5p := getUint16LE src
            fraglen := getUint16LE (src.drop 2)
            qual := src.getD 4 0
            strand := src.getD 5 0 } :: rest, off2)

/-- One iteration of the decoder's per-read loop for presence bit `bit`:
when the bit is set, read the 4-byte length then that many records;
otherwise leave the list at its zero value. -/
def readPerReadBase (inBuf : List Nat) (fp : Nat) (bit : Nat)
    (offset : Nat) : Option (List perReadFeatures × Nat) :=
  if fp &&& bit ≠ 0 then do
    let (lenSlice, o1) ← cutAndAdvance offset inBuf 4
    readFeatures inBuf o1 (getUint32LE lenSlice)
  else
    pure ([], offset)

/-- `unmarshalPileupRow(in)`: reads the 16-byte header, the counts block iff
its bit is set, then (iff any per-read bit is set) the four per-base
sections for `b = 0,1,2,3`.  `none` models a slice-bounds panic inside
`cutAndAdvance`; the `Option String` is the `error` result, `nil` on every
non-panicking path in the source. -/
def unmarshalPileupRow (inBuf : List Nat) :
    Option (pileupRow × Option String) := do
  let (inStart, off0) ← cutAndAdvance 0 inBuf 16
  let fp := getUint32LE inStart
  let refID := getUint32LE (inStart.drop 4)
  let pos := getUint32LE (inStart.drop 8)
  let depth := getUint32LE (inStart.drop 12)
  let (counts, off1) ←
    if fp &&& fieldCounts ≠ 0 then
      (cutAndAdvance off0 inBuf 40).map fun w => (countsFromBytes w.1, w.2)
    else
      pure (zeroCounts, off0)
  let (pra, prc, prg, prt) ←
    if fp &&& fieldPerReadAny ≠ 0 then do
      let (pra, oA) ← readPerReadBase inBuf fp fieldPerReadA off1
      let (prc, oC) ← readPerReadBase inBuf fp fieldPerReadC oA
      let (prg, oG) ← readPerReadBase inBuf fp fieldPerReadG oC
      let (prt, _oT) ← readPerReadBase inBuf fp fieldPerReadT oG
      pure (pra, prc, prg, prt)
    else
      pure ([], [], [], [])
  pure ({ fieldsPresent := fp, refID := refID, pos := pos
          payload := { depth := depth, counts := counts
                       perRead := { a := pra, c := prc, g := prg, t := prt } } },
        none)

/-- Machine bounds on a feature record (`uint16`, `uint16`, `byte`, `byte`). -/
def wfFeature (f : perReadFeatures) : Prop :=
  f.dist5p < 65536 ∧ f.fraglen < 65536 ∧ f.qual < 256 ∧ f.strand < 256

instance (f : perReadFeatures) : Decidable (wfFeature f) := by
  unfold wfFeature; infer_instance

/-- Machine bounds on a counts pair (`uint32`). -/
def wfPair (p : Nat × Nat) : Prop := p.1 < 4294967296 ∧ p.2 < 4294967296

instance (p : Nat × Nat) : Decidable (wfPair p) := by
  unfold wfPair; infer_instance

/-- Machine bounds on a whole row: every `uint32` field below `2^32`, every
feature record within its field widths, every list length below `2^32`
(Go slice lengths are converted through `uint32(len(...))`). -/
def wfRow (pr : pileupRow) : Prop :=
  pr.fieldsPresent < 4294967296 ∧ pr.refID < 4294967296 ∧
  pr.pos < 4294967296 ∧ pr.payload.depth < 4294967296 ∧
  wfPair pr.payload.counts.baseA ∧ wfPair pr.payload.counts.baseC ∧
  wfPair pr.payload.counts.baseG ∧ wfPair pr.payload.counts.baseT ∧
  wfPair pr.payload.counts.baseX ∧
  (∀ b : Fin 4, (pr.payload.perRead.get b).length < 4294967296 ∧
     ∀ f ∈ pr.payload.perRead.get b, wfFeature f)

instance (pr : pileupRow) : Decidable (wfRow pr) := by
  unfold wfRow; infer_instance

/-- The claim's equality notion for round trips: fields whose presence bit
is unset compare as their zero value (zeroed counts, empty per-read
lists); everything else is kept verbatim. -/
def normalizeRow (pr : pileupRow) : pileupRow :=
  { pr with
    payload :=
      { depth := pr.payload.depth
        counts := if pr.fieldsPresent &&& fieldCounts ≠ 0 then
                    pr.payload.counts else zeroCounts
        perRead :=
          { a := if pr.fieldsPresent &&& fieldPerReadA ≠ 0 then
                   pr.payload.perRead.a else []
            c := if pr.fieldsPresent &&& fieldPerReadC ≠ 0 then
                   pr.payload.perRead.c else []
            g := if pr.fieldsPresent &&& fieldPerReadG ≠ 0 then
                   pr.payload.perRead.g else []
            t := if pr.fieldsPresent &&& fieldPerReadT ≠ 0 then
                   pr.payload.perRead.t else [] } } }

/-- Row with a replaced `fieldsPresent` word (for stating that high bits are
inert). -/
def withFields (pr : pileupRow) (fp : Nat) : pileupRow :=
  { pr with fieldsPresent := fp }

/-- The exact-length formula as the specification states it:
`16 + 40·[Counts set] + sum over bases of (4 + 6·len)·[bit set]`
(without the source's extra `fieldPerReadAny` guard). -/
def specLen (pr : pileupRow) : Nat :=
  16
  + (if pr.fieldsPresent &&& fieldCounts ≠ 0 then 40 else 0)
  + (if pr.fieldsPresent &&& fieldPerReadA ≠ 0 then
       4 + 6 * pr.payload.perRead.a.length else 0)
  + (if pr.fieldsPresent &&& fieldPerReadC ≠ 0 then
       4 + 6 * pr.payload.perRead.c.length else 0)
  + (if pr.fieldsPresent &&& fieldPerReadG ≠ 0 then
       4 + 6 * pr.payload.perRead.g.length else 0)
  + (if pr.fieldsPresent &&& fieldPerReadT ≠ 0 then
       4 + 6 * pr.payload.perRead.t.length else 0)

/-- The Go zero value of `pileupRow`. -/
def zeroRow : pileupRow :=
  { fieldsPresent := 0, refID := 0, pos := 0
    payload := { depth := 0, counts := zeroCounts
                 perRead := { a := [], c := [], g := [], t := [] } } }

/-- The concrete row of the specification scenario:
`fieldsPresent = Counts|PerReadA`, `refID = 7`, `pos = 100`, `depth = 5`,
`counts[A] = (3,2)`, one per-read record `{10, 150, 30, 0}` for base A. -/
def c3row : pileupRow :=
  { fieldsPresent := fieldCounts ||| fieldPerReadA, refID := 7, pos := 100
    payload := { depth := 5
                 counts := { baseA := (3, 2), baseC := (0, 0), baseG := (0, 0)
                             baseT := (0, 0), baseX := (0, 0) }
                 perRead := { a := [{ dist5p := 10, fraglen := 150
                                      qual := 30, strand := 0 }]
                              c := [], g := [], t := [] } } }

/-- The 66-byte encoding the specification scenario prescribes. -/
def c3bytes : List Nat :=
  [3, 0, 0, 0, 7, 0, 0, 0, 100, 0, 0, 0, 5, 0, 0, 0, 3, 0, 0, 0, 2, 0, 0, 0]
  ++ List.replicate 32 0
  ++ [1, 0, 0, 0, 10, 0, 150, 0, 30, 0]

/-- A 20-byte buffer whose header declares `PerReadA` present with a stored
list length of 5, but which holds no feature bytes at all: the per-read
length field promises more data than the buffer contains. -/
def c6truncBuf : List Nat :=
  [2, 0, 0, 0] ++ List.replicate 12 0 ++ [5, 0, 0, 0]

/-- A sample row exercising every defined presence bit. -/
def exRow : pileupRow :=
  { fieldsPresent := 31, refID := 7, pos := 100
    payload := { depth := 5
                 counts := { baseA := (3, 2), baseC := (1, 0), baseG := (0, 4)
                             baseT := (9, 9), baseX := (1, 1) }
                 perRead := { a := [{ dist5p := 10, fraglen := 150
                                      qual := 30, strand := 0 }]
                              c := []
                              g := [{ dist5p := 0, fraglen := 1
                                      qual := 2, strand := 3 },
                                    { dist5p := 4, fraglen := 5
                                      qual := 6, strand := 7 }]
                              t := [] } } }

/-- A sample row whose `PerReadC` bit is set while its C list is empty. -/
def exRowC4 : pileupRow :=
  { fieldsPresent := fieldPerReadC, refID := 1, pos := 2
    payload := { depth := 3, counts := zeroCounts
                 perRead := { a := [], c := [], g := [], t := [] } } }

/-- A sample row whose `PerReadA` bit is unset while its A list is
non-empty in memory. -/
def exRowC5 : pileupRow :=
  { fieldsPresent := fieldCounts, refID := 1, pos := 2
    payload := { depth := 3, counts := zeroCounts
                 perRead := { a := [{ dist5p := 10, fraglen := 150
                                      qual := 30, strand := 0 }]
                              c := [], g := [], t := [] } } }

/-! ### Basic byte-level lemmas -/

theorem putUint16LE_length (x : Nat) : (putUint16LE x).length = 2 := rfl

theorem putUint32LE_length (x : Nat) : (putUint32LE x).length = 4 := rfl

theorem featureBytes_length (f : perReadFeatures) :
    (featureBytes f).length = 6 := rfl

theorem headerBytes_length (pr : pileupRow) :
    (headerBytes pr).length = 16 := rfl

theorem countsBytes_length (c : pileupCounts) :
    (countsBytes c).length = 40 := rfl

theorem getUint16LE_putUint16LE (x : Nat) (rest : List Nat)
    (h : x < 65536) : getUint16LE (putUint16LE x ++ rest) = x := by
  simp only [putUint16LE, getUint16LE, List.cons_append, List.nil_append,
    List.getD_cons_zero, List.getD_cons_succ]
  omega

theorem getUint32LE_putUint32LE (x : Nat) (rest : List Nat)
    (h : x < 4294967296) : getUint32LE (putUint32LE x ++ rest) = x := by
  simp only [putUint32LE, getUint32LE, List.cons_append, List.nil_append,
    List.getD_cons_zero, List.getD_cons_succ]
  omega

theorem putUint32LE_append_drop (x : Nat) (rest : List Nat) :
    (putUint32LE x ++ rest).drop 4 = rest := rfl

theorem cutAndAdvance_exact (pre p rest : List Nat) (n : Nat)
    (hp : p.length = n) :
    cutAndAdvance pre.length (pre ++ (p ++ rest)) n =
      some (p, pre.length + n) := by
  subst hp
  unfold cutAndAdvance
  rw [if_pos (by simp only [List.length_append]; omega)]
  rw [List.drop_left, List.take_left]

/-! ### The encoder writes a contiguous prefix -/

theorem writeAt_length (t : List Nat) (off : Nat) (piece : List Nat)
    (h : off + piece.length ≤ t.length) :
    (writeAt t off piece).length = t.length := by
  unfold writeAt
  simp only [List.length_append, List.length_take, List.length_drop]
  omega

theorem writeAt_take (t : List Nat) (off : Nat) (piece : List Nat)
    (h : off + piece.length ≤ t.length) :
    (writeAt t off piece).take (off + piece.length) =
      t.take off ++ piece := by
  unfold writeAt
  have hl : (t.take off ++ piece).length = off + piece.length := by
    simp only [List.length_append, List.length_take]
    omega
  rw [← hl, List.take_left]

theorem writeAt_drop (t : List Nat) (off : Nat) (piece : List Nat) (k : Nat)
    (h : off + piece.length ≤ t.length) :
    (writeAt t off piece).drop (off + piece.length + k) =
      t.drop (off + piece.length + k) := by
  unfold writeAt
  have hl : (t.take off ++ piece).length = off + piece.length := by
    simp only [List.length_append, List.length_take]
    omega
  rw [List.drop_append_eq_append_drop, hl,
    List.drop_eq_nil_of_le (by omega), List.nil_append, List.drop_drop]
  congr 1
  omega

theorem encFold_spec (pieces : List (List Nat)) :
    ∀ st : EncState, st.offset + pieces.flatten.length ≤ st.t.length →
      encFold st pieces =
        some { offset := st.offset + pieces.flatten.length
               t := st.t.take st.offset ++ pieces.flatten ++
                      st.t.drop (st.offset + pieces.flatten.length)
               pr := st.pr } := by
  induction pieces with
  | nil =>
    intro st h
    simp only [encFold, List.flatten_nil, List.length_nil, Nat.add_zero,
      List.append_nil]
    rw [List.take_append_drop]
  | cons p ps ih =>
    intro st h
    simp only [List.flatten_cons, List.length_append] at h ⊢
    have hb : st.offset + p.length ≤ st.t.length := by omega
    simp only [encFold, encStep, if_pos hb, Option.some_bind]
    have hlen := writeAt_length st.t st.offset p hb
    rw [ih _ (by simp only [hlen]; omega)]
    have htake := writeAt_take st.t st.offset p hb
    have hdrop := writeAt_drop st.t st.offset p ps.flatten.length hb
    rw [Nat.add_assoc] at hdrop
    simp only [Option.some.injEq, EncState.mk.injEq, htake, hdrop,
      List.append_assoc, Nat.add_assoc, and_true, true_and]

/-! ### Decomposing the emitted bytes -/

/-- The contiguous bytes one per-read section contributes. -/
def baseChunk (fp : Nat) (l : List perReadFeatures) (bit : Nat) : List Nat :=
  if fp &&& bit ≠ 0 then
    putUint32LE l.length ++ (l.map featureBytes).flatten
  else []

/-- The contiguous bytes the counts section contributes. -/
def countsChunk (pr : pileupRow) : List Nat :=
  if pr.fieldsPresent &&& fieldCounts ≠ 0 then
    countsBytes pr.payload.counts
  else []

theorem basePieces_flatten (fp : Nat) (l : List perReadFeatures)
    (bit : Nat) : (basePieces fp l bit).flatten = baseChunk fp l bit := by
  unfold basePieces baseChunk
  split
  · simp
  · simp

theorem featuresFlat_length (l : List perReadFeatures) :
    ((l.map featureBytes).flatten).length = 6 * l.length := by
  induction l with
  | nil => rfl
  | cons f fs ih =>
    simp only [List.map_cons, List.flatten_cons, List.length_append, ih,
      featureBytes_length, List.length_cons]
    omega

theorem baseChunk_length (fp : Nat) (l : List perReadFeatures) (bit : Nat) :
    (baseChunk fp l bit).length =
      if fp &&& bit ≠ 0 then 4 + 6 * l.length else 0 := by
  unfold baseChunk
  split
  · simp only [List.length_append, putUint32LE_length, featuresFlat_length]
  · rfl

theorem and_bit_of_any_zero (fp bit : Nat) (h : fp &&& fieldPerReadAny = 0)
    (hb : fieldPerReadAny &&& bit = bit) : fp &&& bit = 0 := by
  calc fp &&& bit = fp &&& (fieldPerReadAny &&& bit) := by rw [hb]
    _ = fp &&& fieldPerReadAny &&& bit := (Nat.and_assoc ..).symm
    _ = 0 &&& bit := by rw [h]
    _ = 0 := Nat.zero_and bit

theorem encBytes_eq (pr : pileupRow) :
    encBytes pr =
      headerBytes pr ++ countsChunk pr
      ++ baseChunk pr.fieldsPresent pr.payload.perRead.a fieldPerReadA
      ++ baseChunk pr.fieldsPresent pr.payload.perRead.c fieldPerReadC
      ++ baseChunk pr.fieldsPresent pr.payload.perRead.g fieldPerReadG
      ++ baseChunk pr.fieldsPresent pr.payload.perRead.t fieldPerReadT := by
  unfold encBytes encPieces countsChunk
  by_cases hAny : pr.fieldsPresent &&& fieldPerReadAny ≠ 0
  · rw [if_pos hAny]
    by_cases hc : pr.fieldsPresent &&& fieldCounts ≠ 0
    · rw [if_pos hc, if_pos hc]
      simp [basePieces_flatten, List.append_assoc]
    · rw [if_neg hc, if_neg hc]
      simp [basePieces_flatten, List.append_assoc]
  · rw [if_neg hAny]
    push_neg at hAny
    have hA := and_bit_of_any_zero _ fieldPerReadA hAny (by decide)
    have hC := and_bit_of_any_zero _ fieldPerReadC hAny (by decide)
    have hG := and_bit_of_any_zero _ fieldPerReadG hAny (by decide)
    have hT := and_bit_of_any_zero _ fieldPerReadT hAny (by decide)
    rw [show baseChunk pr.fieldsPresent pr.payload.perRead.a fieldPerReadA
        = [] from by unfold baseChunk; rw [if_neg (by simp [hA])]]
    rw [show baseChunk pr.fieldsPresent pr.payload.perRead.c fieldPerReadC
        = [] from by unfold baseChunk; rw [if_neg (by simp [hC])]]
    rw [show baseChunk pr.fieldsPresent pr.payload.perRead.g fieldPerReadG
        = [] from by unfold baseChunk; rw [if_neg (by simp [hG])]]
    rw [show baseChunk pr.fieldsPresent pr.payload.perRead.t fieldPerReadT
        = [] from by unfold baseChunk; rw [if_neg (by simp [hT])]]
    by_cases hc : pr.fieldsPresent &&& fieldCounts ≠ 0
    · rw [if_pos hc, if_pos hc]
      simp
    · rw [if_neg hc, if_neg hc]
      simp

theorem encBytes_length (pr : pileupRow) :
    (encBytes pr).length = bytesReq pr := by
  rw [encBytes_eq]
  unfold bytesReq countsChunk
  by_cases hAny : pr.fieldsPresent &&& fieldPerReadAny ≠ 0
  · rw [if_pos hAny]
    by_cases hc : pr.fieldsPresent &&& fieldCounts ≠ 0
    · rw [if_pos hc, if_pos hc]
      simp only [List.length_append, baseChunk_length, headerBytes_length,
        countsBytes_length]
      omega
    · rw [if_neg hc, if_neg hc]
      simp only [List.length_append, baseChunk_length, headerBytes_length,
        List.length_nil]
      omega
  · rw [if_neg hAny]
    push_neg at hAny
    have hA := and_bit_of_any_zero _ fieldPerReadA hAny (by decide)
    have hC := and_bit_of_any_zero _ fieldPerReadC hAny (by decide)
    have hG := and_bit_of_any_zero _ fieldPerReadG hAny (by decide)
    have hT := and_bit_of_any_zero _ fieldPerReadT hAny (by decide)
    by_cases hc : pr.fieldsPresent &&& fieldCounts ≠ 0
    · rw [if_pos hc, if_pos hc]
      simp only [List.length_append, baseChunk_length, headerBytes_length,
        countsBytes_length, hA, hC, hG, hT, ne_eq, not_true_eq_false,
        if_false, List.length_nil]
    · rw [if_neg hc, if_neg hc]
      simp only [List.length_append, baseChunk_length, headerBytes_length,
        hA, hC, hG, hT, ne_eq, not_true_eq_false, if_false, List.length_nil]

/-! ### Closed form of the encoder -/

theorem marshalPileupRowSt_eq (scratch : List Nat) (pr : pileupRow) :
    marshalPileupRowSt scratch pr =
      some { offset := bytesReq pr
             t := encBytes pr ++ scratch.drop (bytesReq pr)
             pr := pr } := by
  unfold marshalPileupRowSt
  have hflat : (encPieces pr).flatten = encBytes pr := rfl
  have hlen : (encPieces pr).flatten.length ≤
      (if scratch.length < bytesReq pr then
        List.replicate (bytesReq pr) 0 else scratch).length := by
    rw [hflat, encBytes_length]
    split
    · simp
    · omega
  rw [encFold_spec (encPieces pr) _ (by simpa using hlen)]
  simp only [hflat, encBytes_length, Nat.zero_add, List.take_zero,
    List.nil_append]
  have hdrop : (if scratch.length < bytesReq pr then
      List.replicate (bytesReq pr) 0 else scratch).drop (bytesReq pr) =
      scratch.drop (bytesReq pr) := by
    split
    next h =>
      rw [List.drop_replicate, Nat.sub_self, List.replicate_zero,
        List.drop_eq_nil_of_le (Nat.le_of_lt h)]
    next => rfl
  rw [hdrop]

theorem marshalPileupRow_eq (scratch : List Nat) (pr : pileupRow) :
    marshalPileupRow scratch pr =
      some (encBytes pr ++ scratch.drop (bytesReq pr), none) := by
  unfold marshalPileupRow
  rw [marshalPileupRowSt_eq]
  rfl

/-! ### Decoder lemmas -/

theorem getUint32LE_putUint32 (x : Nat) (h : x < 4294967296) :
    getUint32LE (putUint32LE x) = x := by
  show x % 256 + 256 * (x / 256 % 256) + 65536 * (x / 65536 % 256) +
    16777216 * (x / 16777216 % 256) = x
  omega

theorem header_fieldsPresent (pr : pileupRow)
    (h : pr.fieldsPresent < 4294967296) :
    getUint32LE (headerBytes pr) = pr.fieldsPresent := by
  show pr.fieldsPresent % 256 + 256 * (pr.fieldsPresent / 256 % 256) +
    65536 * (pr.fieldsPresent / 65536 % 256) +
    16777216 * (pr.fieldsPresent / 16777216 % 256) = pr.fieldsPresent
  omega

theorem header_refID (pr : pileupRow) (h : pr.refID < 4294967296) :
    getUint32LE ((headerBytes pr).drop 4) = pr.refID := by
  show pr.refID % 256 + 256 * (pr.refID / 256 % 256) +
    65536 * (pr.refID / 65536 % 256) +
    16777216 * (pr.refID / 16777216 % 256) = pr.refID
  omega

theorem header_pos (pr : pileupRow) (h : pr.pos < 4294967296) :
    getUint32LE ((headerBytes pr).drop 8) = pr.pos := by
  show pr.pos % 256 + 256 * (pr.pos / 256 % 256) +
    65536 * (pr.pos / 65536 % 256) +
    16777216 * (pr.pos / 16777216 % 256) = pr.pos
  omega

theorem header_depth (pr : pileupRow) (h : pr.payload.depth < 4294967296) :
    getUint32LE ((headerBytes pr).drop 12) = pr.payload.depth := by
  show pr.payload.depth % 256 + 256 * (pr.payload.depth / 256 % 256) +
    65536 * (pr.payload.depth / 65536 % 256) +
    16777216 * (pr.payload.depth / 16777216 % 256) = pr.payload.depth
  omega

set_option maxHeartbeats 1600000 in
theorem countsFromBytes_countsBytes (c : pileupCounts)
    (hA : wfPair c.baseA) (hC : wfPair c.baseC) (hG : wfPair c.baseG)
    (hT : wfPair c.baseT) (hX : wfPair c.baseX) :
    countsFromBytes (countsBytes c) = c := by
  obtain ⟨hA1, hA2⟩ := hA
  obtain ⟨hC1, hC2⟩ := hC
  obtain ⟨hG1, hG2⟩ := hG
  obtain ⟨hT1, hT2⟩ := hT
  obtain ⟨hX1, hX2⟩ := hX
  have eA1 : getUint32LE (countsBytes c) = c.baseA.1 := by
    show c.baseA.1 % 256 + 256 * (c.baseA.1 / 256 % 256) +
      65536 * (c.baseA.1 / 65536 % 256) +
      16777216 * (c.baseA.1 / 16777216 % 256) = c.baseA.1
    omega
  have eA2 : getUint32LE ((countsBytes c).drop 4) = c.baseA.2 := by
    show c.baseA.2 % 256 + 256 * (c.baseA.2 / 256 % 256) +
      65536 * (c.baseA.2 / 65536 % 256) +
      16777216 * (c.baseA.2 / 16777216 % 256) = c.baseA.2
    omega
  have eC1 : getUint32LE ((countsBytes c).drop 8) = c.baseC.1 := by
    show c.baseC.1 % 256 + 256 * (c.baseC.1 / 256 % 256) +
      65536 * (c.baseC.1 / 65536 % 256) +
      16777216 * (c.baseC.1 / 16777216 % 256) = c.baseC.1
    omega
  have eC2 : getUint32LE ((countsBytes c).drop 12) = c.baseC.2 := by
    show c.baseC.2 % 256 + 256 * (c.baseC.2 / 256 % 256) +
      65536 * (c.baseC.2 / 65536 % 256) +
      16777216 * (c.baseC.2 / 16777216 % 256) = c.baseC.2
    omega
  have eG1 : getUint32LE ((countsBytes c).drop 16) = c.baseG.1 := by
    show c.baseG.1 % 256 + 256 * (c.baseG.1 / 256 % 256) +
      65536 * (c.baseG.1 / 65536 % 256) +
      16777216 * (c.baseG.1 / 16777216 % 256) = c.baseG.1
    omega
  have eG2 : getUint32LE ((countsBytes c).drop 20) = c.baseG.2 := by
    show c.baseG.2 % 256 + 256 * (c.baseG.2 / 256 % 256) +
      65536 * (c.baseG.2 / 65536 % 256) +
      16777216 * (c.baseG.2 / 16777216 % 256) = c.baseG.2
    omega
  have eT1 : getUint32LE ((countsBytes c).drop 24) = c.baseT.1 := by
    show c.baseT.1 % 256 + 256 * (c.baseT.1 / 256 % 256) +
      65536 * (c.baseT.1 / 65536 % 256) +
      16777216 * (c.baseT.1 / 16777216 % 256) = c.baseT.1
    omega
  have eT2 : getUint32LE ((countsBytes c).drop 28) = c.baseT.2 := by
    show c.baseT.2 % 256 + 256 * (c.baseT.2 / 256 % 256) +
      65536 * (c.baseT.2 / 65536 % 256) +
      16777216 * (c.baseT.2 / 16777216 % 256) = c.baseT.2
    omega
  have eX1 : getUint32LE ((countsBytes c).drop 32) = c.baseX.1 := by
    show c.baseX.1 % 256 + 256 * (c.baseX.1 / 256 % 256) +
      65536 * (c.baseX.1 / 65536 % 256) +
      16777216 * (c.baseX.1 / 16777216 % 256) = c.baseX.1
    omega
  have eX2 : getUint32LE ((countsBytes c).drop 36) = c.baseX.2 := by
    show c.baseX.2 % 256 + 256 * (c.baseX.2 / 256 % 256) +
      65536 * (c.baseX.2 / 65536 % 256) +
      16777216 * (c.baseX.2 / 16777216 % 256) = c.baseX.2
    omega
  unfold countsFromBytes
  rw [eA1, eA2, eC1, eC2, eG1, eG2, eT1, eT2, eX1, eX2]

theorem readFeatures_spec (fs : List perReadFeatures) :
    ∀ pre rest : List Nat, (∀ f ∈ fs, wfFeature f) →
      readFeatures (pre ++ ((fs.map featureBytes).flatten ++ rest))
          pre.length fs.length =
        some (fs, pre.length + 6 * fs.length) := by
  induction fs with
  | nil =>
    intro pre rest h
    simp [readFeatures]
  | cons f fs ih =>
    intro pre rest h
    obtain ⟨h1, h2, h3, h4⟩ := h f (by simp)
    have hbuf : pre ++ (((f :: fs).map featureBytes).flatten ++ rest) =
        pre ++ (featureBytes f ++ ((fs.map featureBytes).flatten ++ rest)) := by
      simp [List.append_assoc]
    rw [hbuf, List.length_cons]
    simp only [readFeatures]
    rw [cutAndAdvance_exact pre (featureBytes f) _ 6 rfl]
    have e1 : getUint16LE (featureBytes f) = f.dist5p := by
      show f.dist5p % 256 + 256 * (f.dist5p / 256 % 256) = f.dist5p
      omega
    have e2 : getUint16LE ((featureBytes f).drop 2) = f.fraglen := by
      show f.fraglen % 256 + 256 * (f.fraglen / 256 % 256) = f.fraglen
      omega
    have ihh := ih (pre ++ featureBytes f) rest (fun g hg => h g (by simp [hg]))
    rw [List.append_assoc, List.length_append, featureBytes_length] at ihh
    simp [ihh]
    refine ⟨?_, by omega⟩
    have e3 : (featureBytes f)[4]?.getD 0 = f.qual := rfl
    have e4 : (featureBytes f)[5]?.getD 0 = f.strand := rfl
    rw [e1, e2, e3, e4]

theorem featuresSum_length (l : List perReadFeatures) :
    (List.map (List.length ∘ featureBytes) l).sum = 6 * l.length := by
  induction l with
  | nil => rfl
  | cons f fs ih =>
    simp only [List.map_cons, List.sum_cons, ih, Function.comp_apply,
      featureBytes_length, List.length_cons]
    omega

theorem readPerReadBase_spec (fp bit : Nat) (l : List perReadFeatures)
    (hl : l.length < 4294967296) (hwf : ∀ f ∈ l, wfFeature f)
    (pre rest : List Nat) :
    readPerReadBase (pre ++ (baseChunk fp l bit ++ rest)) fp bit pre.length =
      some ((if fp &&& bit ≠ 0 then l else []),
            pre.length + (baseChunk fp l bit).length) := by
  by_cases h : fp &&& bit ≠ 0
  · unfold readPerReadBase baseChunk
    simp only [if_pos h]
    rw [List.append_assoc]
    rw [cutAndAdvance_exact pre (putUint32LE l.length) _ 4 rfl]
    have ihh := readFeatures_spec l (pre ++ putUint32LE l.length) rest hwf
    rw [List.append_assoc, List.length_append, putUint32LE_length] at ihh
    simp [getUint32LE_putUint32 l.length hl, ihh, featuresSum_length,
      putUint32LE_length]
    omega
  · unfold readPerReadBase baseChunk
    simp only [if_neg h]
    simp

theorem cutAndAdvance_zero (p rest : List Nat) (n : Nat) (hp : p.length = n) :
    cutAndAdvance 0 (p ++ rest) n = some (p, n) := by
  have h := cutAndAdvance_exact [] p rest n hp
  simpa using h

theorem cutAndAdvance_at (k : Nat) (pre p rest : List Nat) (n : Nat)
    (hk : pre.length = k) (hp : p.length = n) :
    cutAndAdvance k (pre ++ (p ++ rest)) n = some (p, k + n) := by
  subst hk
  exact cutAndAdvance_exact pre p rest n hp

theorem unmarshal_encBytes (pr : pileupRow) (h : wfRow pr)
    (tail : List Nat) :
    unmarshalPileupRow (encBytes pr ++ tail) =
      some (normalizeRow pr, none) := by
  obtain ⟨hfp, href, hpos, hdep, hcA, hcC, hcG, hcT, hcX, hper⟩ := h
  have hla := (hper 0).1
  have hwa := (hper 0).2
  have hlc := (hper 1).1
  have hwc := (hper 1).2
  have hlg := (hper 2).1
  have hwg := (hper 2).2
  have hlt := (hper 3).1
  have hwt := (hper 3).2
  by_cases hc : pr.fieldsPresent &&& fieldCounts ≠ 0
  · have hB : encBytes pr ++ tail =
        headerBytes pr ++ (countsBytes pr.payload.counts ++
          (baseChunk pr.fieldsPresent pr.payload.perRead.a fieldPerReadA ++
            (baseChunk pr.fieldsPresent pr.payload.perRead.c fieldPerReadC ++
              (baseChunk pr.fieldsPresent pr.payload.perRead.g fieldPerReadG ++
                (baseChunk pr.fieldsPresent pr.payload.perRead.t fieldPerReadT ++
                  tail))))) := by
      rw [encBytes_eq]
      unfold countsChunk
      rw [if_pos hc]
      simp [List.append_assoc]
    rw [hB]
    unfold unmarshalPileupRow
    rw [cutAndAdvance_zero (headerBytes pr) _ 16 rfl]
    simp only [Option.bind_eq_bind, Option.some_bind]
    rw [header_fieldsPresent pr hfp, header_refID pr href,
      header_pos pr hpos, header_depth pr hdep]
    rw [if_pos hc]
    rw [cutAndAdvance_at 16 (headerBytes pr) (countsBytes pr.payload.counts)
      _ 40 rfl rfl]
    simp only [Option.map_some', Option.some_bind]
    rw [countsFromBytes_countsBytes _ hcA hcC hcG hcT hcX]
    by_cases hAny : pr.fieldsPresent &&& fieldPerReadAny ≠ 0
    · rw [if_pos hAny]
      have rA := readPerReadBase_spec pr.fieldsPresent fieldPerReadA
        pr.payload.perRead.a hla hwa
        (headerBytes pr ++ countsBytes pr.payload.counts)
        (baseChunk pr.fieldsPresent pr.payload.perRead.c fieldPerReadC ++
          (baseChunk pr.fieldsPresent pr.payload.perRead.g fieldPerReadG ++
            (baseChunk pr.fieldsPresent pr.payload.perRead.t fieldPerReadT ++
              tail)))
      rw [List.append_assoc,
        show (headerBytes pr ++ countsBytes pr.payload.counts).length =
          16 + 40 from rfl] at rA
      rw [rA]
      simp only [Option.some_bind]
      have rC := readPerReadBase_spec pr.fieldsPresent fieldPerReadC
        pr.payload.perRead.c hlc hwc
        (headerBytes pr ++ countsBytes pr.payload.counts ++
          baseChunk pr.fieldsPresent pr.payload.perRead.a fieldPerReadA)
        (baseChunk pr.fieldsPresent pr.payload.perRead.g fieldPerReadG ++
          (baseChunk pr.fieldsPresent pr.payload.perRead.t fieldPerReadT ++
            tail))
      rw [List.append_assoc, List.append_assoc, List.length_append,
        show (headerBytes pr ++ countsBytes pr.payload.counts).length =
          16 + 40 from rfl] at rC
      rw [rC]
      simp only [Option.some_bind]
      have rG := readPerReadBase_spec pr.fieldsPresent fieldPerReadG
        pr.payload.perRead.g hlg hwg
        (headerBytes pr ++ countsBytes pr.payload.counts ++
          baseChunk pr.fieldsPresent pr.payload.perRead.a fieldPerReadA ++
          baseChunk pr.fieldsPresent pr.payload.perRead.c fieldPerReadC)
        (baseChunk pr.fieldsPresent pr.payload.perRead.t fieldPerReadT ++
          tail)
      rw [List.append_assoc, List.append_assoc, List.append_assoc,
        List.length_append, List.length_append,
        show (headerBytes pr ++ countsBytes pr.payload.counts).length =
          16 + 40 from rfl] at rG
      rw [rG]
      simp only [Option.some_bind]
      have rT := readPerReadBase_spec pr.fieldsPresent fieldPerReadT
        pr.payload.perRead.t hlt hwt
        (headerBytes pr ++ countsBytes pr.payload.counts ++
          baseChunk pr.fieldsPresent pr.payload.perRead.a fieldPerReadA ++
          baseChunk pr.fieldsPresent pr.payload.perRead.c fieldPerReadC ++
          baseChunk pr.fieldsPresent pr.payload.perRead.g fieldPerReadG)
        tail
      rw [List.append_assoc, List.append_assoc, List.append_assoc,
        List.append_assoc, List.length_append, List.length_append,
        List.length_append,
        show (headerBytes pr ++ countsBytes pr.payload.counts).length =
          16 + 40 from rfl] at rT
      rw [rT]
      simp only [Option.some_bind, Option.pure_def]
      unfold normalizeRow
      simp only [if_pos hc]
    · rw [if_neg hAny]
      push_neg at hAny
      have hA2 := and_bit_of_any_zero _ fieldPerReadA hAny (by decide)
      have hC2 := and_bit_of_any_zero _ fieldPerReadC hAny (by decide)
      have hG2 := and_bit_of_any_zero _ fieldPerReadG hAny (by decide)
      have hT2 := and_bit_of_any_zero _ fieldPerReadT hAny (by decide)
      simp only [Option.some_bind, Option.pure_def]
      unfold normalizeRow
      simp only [hA2, hC2, hG2, hT2, if_pos hc, ne_eq, not_true_eq_false,
        if_false]
  · have hc0 : pr.fieldsPresent &&& fieldCounts = 0 := by
      push_neg at hc
      exact hc
    have hB : encBytes pr ++ tail =
        headerBytes pr ++
          (baseChunk pr.fieldsPresent pr.payload.perRead.a fieldPerReadA ++
            (baseChunk pr.fieldsPresent pr.payload.perRead.c fieldPerReadC ++
              (baseChunk pr.fieldsPresent pr.payload.perRead.g fieldPerReadG ++
                (baseChunk pr.fieldsPresent pr.payload.perRead.t fieldPerReadT ++
                  tail)))) := by
      rw [encBytes_eq]
      unfold countsChunk
      rw [if_neg hc]
      simp [List.append_assoc]
    rw [hB]
    unfold unmarshalPileupRow
    rw [cutAndAdvance_zero (headerBytes pr) _ 16 rfl]
    simp only [Option.bind_eq_bind, Option.some_bind]
    rw [header_fieldsPresent pr hfp, header_refID pr href,
      header_pos pr hpos, header_depth pr hdep]
    rw [if_neg hc]
    simp only [Option.pure_def, Option.some_bind]
    by_cases hAny : pr.fieldsPresent &&& fieldPerReadAny ≠ 0
    · rw [if_pos hAny]
      have rA := readPerReadBase_spec pr.fieldsPresent fieldPerReadA
        pr.payload.perRead.a hla hwa (headerBytes pr)
        (baseChunk pr.fieldsPresent pr.payload.perRead.c fieldPerReadC ++
          (baseChunk pr.fieldsPresent pr.payload.perRead.g fieldPerReadG ++
            (baseChunk pr.fieldsPresent pr.payload.perRead.t fieldPerReadT ++
              tail)))
      rw [show (headerBytes pr).length = 16 from rfl] at rA
      rw [rA]
      simp only [Option.some_bind]
      have rC := readPerReadBase_spec pr.fieldsPresent fieldPerReadC
        pr.payload.perRead.c hlc hwc
        (headerBytes pr ++
          baseChunk pr.fieldsPresent pr.payload.perRead.a fieldPerReadA)
        (baseChunk pr.fieldsPresent pr.payload.perRead.g fieldPerReadG ++
          (baseChunk pr.fieldsPresent pr.payload.perRead.t fieldPerReadT ++
            tail))
      rw [List.append_assoc, List.length_append,
        show (headerBytes pr).length = 16 from rfl] at rC
      rw [rC]
      simp only [Option.some_bind]
      have rG := readPerReadBase_spec pr.fieldsPresent fieldPerReadG
        pr.payload.perRead.g hlg hwg
        (headerBytes pr ++
          baseChunk pr.fieldsPresent pr.payload.perRead.a fieldPerReadA ++
          baseChunk pr.fieldsPresent pr.payload.perRead.c fieldPerReadC)
        (baseChunk pr.fieldsPresent pr.payload.perRead.t fieldPerReadT ++
          tail)
      rw [List.append_assoc, List.append_assoc, List.length_append,
        List.length_append,
        show (headerBytes pr).length = 16 from rfl] at rG
      rw [rG]
      simp only [Option.some_bind]
      have rT := readPerReadBase_spec pr.fieldsPresent fieldPerReadT
        pr.payload.perRead.t hlt hwt
        (headerBytes pr ++
          baseChunk pr.fieldsPresent pr.payload.perRead.a fieldPerReadA ++
          baseChunk pr.fieldsPresent pr.payload.perRead.c fieldPerReadC ++
          baseChunk pr.fieldsPresent pr.payload.perRead.g fieldPerReadG)
        tail
      rw [List.append_assoc, List.append_assoc, List.append_assoc,
        List.length_append, List.length_append, List.length_append,
        show (headerBytes pr).length = 16 from rfl] at rT
      rw [rT]
      simp only [Option.some_bind, Option.pure_def]
      unfold normalizeRow
      simp only [hc0, ne_eq, not_true_eq_false, if_false]
    · rw [if_neg hAny]
      push_neg at hAny
      have hA2 := and_bit_of_any_zero _ fieldPerReadA hAny (by decide)
      have hC2 := and_bit_of_any_zero _ fieldPerReadC hAny (by decide)
      have hG2 := and_bit_of_any_zero _ fieldPerReadG hAny (by decide)
      have hT2 := and_bit_of_any_zero _ fieldPerReadT hAny (by decide)
      unfold normalizeRow
      simp only [hA2, hC2, hG2, hT2, hc0, ne_eq, not_true_eq_false,
        if_false]

/-! ### Helper lemmas for the claim statements -/

theorem specLen_eq_bytesReq (pr : pileupRow) : specLen pr = bytesReq pr := by
  unfold specLen bytesReq
  by_cases hAny : pr.fieldsPresent &&& fieldPerReadAny ≠ 0
  · rw [if_pos hAny]
    omega
  · rw [if_neg hAny]
    push_neg at hAny
    have hA := and_bit_of_any_zero _ fieldPerReadA hAny (by decide)
    have hC := and_bit_of_any_zero _ fieldPerReadC hAny (by decide)
    have hG := and_bit_of_any_zero _ fieldPerReadG hAny (by decide)
    have hT := and_bit_of_any_zero _ fieldPerReadT hAny (by decide)
    simp only [hA, hC, hG, hT, ne_eq, not_true_eq_false, if_false]

theorem normalizeRow_fieldsPresent (pr : pileupRow) :
    (normalizeRow pr).fieldsPresent = pr.fieldsPresent := rfl

theorem normalizeRow_get (pr : pileupRow) (b : Fin 4) :
    (normalizeRow pr).payload.perRead.get b =
      if pr.fieldsPresent &&& baseBit b ≠ 0 then
        pr.payload.perRead.get b
      else [] := by
  fin_cases b <;> rfl

theorem and_low_transfer (x y bit : Nat) (h : x &&& 31 = y &&& 31)
    (hb : 31 &&& bit = bit) : x &&& bit = y &&& bit := by
  calc x &&& bit = x &&& (31 &&& bit) := by rw [hb]
    _ = x &&& 31 &&& bit := (Nat.and_assoc ..).symm
    _ = y &&& 31 &&& bit := by rw [h]
    _ = y &&& (31 &&& bit) := Nat.and_assoc ..
    _ = y &&& bit := by rw [hb]

theorem encBytes_set_irrel (pr : pileupRow) (b : Fin 4)
    (l : List perReadFeatures)
    (hb : pr.fieldsPresent &&& baseBit b = 0) :
    encBytes { pr with payload :=
      { pr.payload with perRead := pr.payload.perRead.set b l } } =
      encBytes pr := by
  fin_cases b
  · have hb2 : pr.fieldsPresent &&& fieldPerReadA = 0 := hb
    rw [encBytes_eq, encBytes_eq]
    unfold countsChunk baseChunk headerBytes perReadLists.set
    simp [hb2]
  · have hb2 : pr.fieldsPresent &&& fieldPerReadC = 0 := hb
    rw [encBytes_eq, encBytes_eq]
    unfold countsChunk baseChunk headerBytes perReadLists.set
    simp [hb2]
  · have hb2 : pr.fieldsPresent &&& fieldPerReadG = 0 := hb
    rw [encBytes_eq, encBytes_eq]
    unfold countsChunk baseChunk headerBytes perReadLists.set
    simp [hb2]
  · have hb2 : pr.fieldsPresent &&& fieldPerReadT = 0 := hb
    rw [encBytes_eq, encBytes_eq]
    unfold countsChunk baseChunk headerBytes perReadLists.set
    simp [hb2]

theorem bytesReq_set_irrel (pr : pileupRow) (b : Fin 4)
    (l : List perReadFeatures)
    (hb : pr.fieldsPresent &&& baseBit b = 0) :
    bytesReq { pr with payload :=
      { pr.payload with perRead := pr.payload.perRead.set b l } } =
      bytesReq pr := by
  fin_cases b
  · have hb2 : pr.fieldsPresent &&& fieldPerReadA = 0 := hb
    unfold bytesReq perReadLists.set
    simp [hb2]
  · have hb2 : pr.fieldsPresent &&& fieldPerReadC = 0 := hb
    unfold bytesReq perReadLists.set
    simp [hb2]
  · have hb2 : pr.fieldsPresent &&& fieldPerReadG = 0 := hb
    unfold bytesReq perReadLists.set
    simp [hb2]
  · have hb2 : pr.fieldsPresent &&& fieldPerReadT = 0 := hb
    unfold bytesReq perReadLists.set
    simp [hb2]

theorem encBytes_withFields (pr : pileupRow) (fp2 : Nat)
    (hlow : fp2 &&& 31 = pr.fieldsPresent &&& 31) :
    encBytes (withFields pr fp2) = putUint32LE fp2 ++ (encBytes pr).drop 4 := by
  have t1 := and_low_transfer fp2 pr.fieldsPresent fieldCounts hlow (by decide)
  have t2 := and_low_transfer fp2 pr.fieldsPresent fieldPerReadA hlow (by decide)
  have t3 := and_low_transfer fp2 pr.fieldsPresent fieldPerReadC hlow (by decide)
  have t4 := and_low_transfer fp2 pr.fieldsPresent fieldPerReadG hlow (by decide)
  have t5 := and_low_transfer fp2 pr.fieldsPresent fieldPerReadT hlow (by decide)
  rw [encBytes_eq, encBytes_eq]
  unfold withFields countsChunk baseChunk headerBytes
  simp only [t1, t2, t3, t4, t5]
  simp [List.append_assoc, putUint32LE_append_drop]

theorem bytesReq_withFields (pr : pileupRow) (fp2 : Nat)
    (hlow : fp2 &&& 31 = pr.fieldsPresent &&& 31) :
    bytesReq (withFields pr fp2) = bytesReq pr := by
  have t1 := and_low_transfer fp2 pr.fieldsPresent fieldCounts hlow (by decide)
  have t2 := and_low_transfer fp2 pr.fieldsPresent fieldPerReadA hlow (by decide)
  have t3 := and_low_transfer fp2 pr.fieldsPresent fieldPerReadC hlow (by decide)
  have t4 := and_low_transfer fp2 pr.fieldsPresent fieldPerReadG hlow (by decide)
  have t5 := and_low_transfer fp2 pr.fieldsPresent fieldPerReadT hlow (by decide)
  have t6 := and_low_transfer fp2 pr.fieldsPresent fieldPerReadAny hlow
    (by decide)
  unfold bytesReq withFields
  simp only [t1, t2, t3, t4, t5, t6]

theorem normalizeRow_withFields_payload (pr : pileupRow) (fp2 : Nat)
    (hlow : fp2 &&& 31 = pr.fieldsPresent &&& 31) :
    (normalizeRow (withFields pr fp2)).payload = (normalizeRow pr).payload := by
  have t1 := and_low_transfer fp2 pr.fieldsPresent fieldCounts hlow (by decide)
  have t2 := and_low_transfer fp2 pr.fieldsPresent fieldPerReadA hlow (by decide)
  have t3 := and_low_transfer fp2 pr.fieldsPresent fieldPerReadC hlow (by decide)
  have t4 := and_low_transfer fp2 pr.fieldsPresent fieldPerReadG hlow (by decide)
  have t5 := and_low_transfer fp2 pr.fieldsPresent fieldPerReadT hlow (by decide)
  unfold normalizeRow withFields
  simp only [t1, t2, t3, t4, t5]

/-! ### The claims -/

/-- C1: for every machine-representable row (`wfRow` carries the Go integer
widths `uint32`/`uint16`/`byte`) and every scratch buffer, encoding succeeds
with a nil error and decoding the returned buffer succeeds, yielding the
original row with every payload field whose presence bit is unset replaced
by its zero value (`normalizeRow`: zeroed counts, empty per-read lists). -/
theorem claim1_roundTrip (pr : pileupRow) (scratch : List Nat)
    (h : wfRow pr) :
    ∃ out : List Nat, marshalPileupRow scratch pr = some (out, none) ∧
      unmarshalPileupRow out = some (normalizeRow pr, none) :=
  ⟨encBytes pr ++ scratch.drop (bytesReq pr),
    marshalPileupRow_eq scratch pr,
    unmarshal_encBytes pr h (scratch.drop (bytesReq pr))⟩

theorem claim1_roundTrip_witness :
    wfRow exRow ∧
      ∃ out : List Nat, marshalPileupRow [] exRow = some (out, none) ∧
        unmarshalPileupRow out = some (normalizeRow exRow, none) :=
  ⟨by decide, claim1_roundTrip exRow [] (by decide)⟩

/-- C2 (counterexample): the claim "the returned slice has length exactly
`16 + 40·[Counts] + Σ (4+6·len)·[bit]` for every scratch buffer, including
oversized ones" is false: with the zero row (required size 16) and a 17-byte
scratch buffer, `marshalPileupRow` returns the entire 17-byte scratch buffer
unsliced. -/
theorem claim2_counterexample :
    marshalPileupRow (List.replicate 17 0) zeroRow =
      some (List.replicate 17 0, none) ∧
    specLen zeroRow = 16 ∧
    (List.replicate 17 (0 : Nat)).length ≠ specLen zeroRow := by
  decide

/-- C2 (amended): for every row and scratch buffer the encoder succeeds with
a nil error; the encoded content has length exactly
`16 + 40·[Counts] + Σ (4+6·len)·[bit]` (`specLen`) and forms exactly the
prefix of that length of the returned slice; the returned slice itself has
length `max (scratch length) (specLen)` — the exact-length formula holds for
the returned slice only when the scratch is not longer than required. -/
theorem claim2_exactLength (pr : pileupRow) (scratch : List Nat) :
    ∃ out : List Nat, marshalPileupRow scratch pr = some (out, none) ∧
      out.length = max scratch.length (specLen pr) ∧
      out.take (specLen pr) = encBytes pr ∧
      (encBytes pr).length = specLen pr := by
  refine ⟨encBytes pr ++ scratch.drop (bytesReq pr),
    marshalPileupRow_eq scratch pr, ?_, ?_, ?_⟩
  · rw [List.length_append, List.length_drop, encBytes_length,
      specLen_eq_bytesReq]
    omega
  · rw [specLen_eq_bytesReq, ← encBytes_length pr, List.take_left]
  · rw [encBytes_length, specLen_eq_bytesReq]

/-- C3: the concrete specification scenario: the row
`{fieldsPresent = Counts|PerReadA, refID = 7, pos = 100, depth = 5,
counts[A] = (3,2), perRead[A] = [{10,150,30,0}]}` encodes (with nil scratch)
to exactly the prescribed 66-byte little-endian sequence, and decoding that
sequence reproduces the row exactly with a nil error. -/
theorem claim3_concreteScenario :
    marshalPileupRow [] c3row = some (c3bytes, none) ∧
      unmarshalPileupRow c3bytes = some (c3row, none) := by
  decide

/-- C4: when a canonical base's presence bit is set and its in-memory list
is empty, the encoder's section for that base is exactly the 4-byte
little-endian zero `[0,0,0,0]` (a zero length, no feature bytes), and
decoding the encoder's output reconstructs a row that still has that base's
bit set (present) with an empty list. -/
theorem claim4_emptyList (pr : pileupRow) (b : Fin 4) (h : wfRow pr)
    (hbit : pr.fieldsPresent &&& baseBit b ≠ 0)
    (hempty : pr.payload.perRead.get b = []) :
    baseChunk pr.fieldsPresent (pr.payload.perRead.get b) (baseBit b) =
      [0, 0, 0, 0] ∧
    ∀ scratch : List Nat, ∃ out : List Nat,
      marshalPileupRow scratch pr = some (out, none) ∧
      ∃ pr2 : pileupRow, unmarshalPileupRow out = some (pr2, none) ∧
        pr2.fieldsPresent &&& baseBit b ≠ 0 ∧
        pr2.payload.perRead.get b = [] := by
  constructor
  · rw [hempty]
    unfold baseChunk
    rw [if_pos hbit]
    rfl
  · intro scratch
    refine ⟨encBytes pr ++ scratch.drop (bytesReq pr),
      marshalPileupRow_eq scratch pr,
      normalizeRow pr, unmarshal_encBytes pr h _, hbit, ?_⟩
    rw [normalizeRow_get, if_pos hbit, hempty]

theorem claim4_emptyList_witness :
    (wfRow exRowC4 ∧ exRowC4.fieldsPresent &&& baseBit 1 ≠ 0 ∧
      exRowC4.payload.perRead.get 1 = []) ∧
    (baseChunk exRowC4.fieldsPresent (exRowC4.payload.perRead.get 1)
        (baseBit 1) = [0, 0, 0, 0] ∧
      ∀ scratch : List Nat, ∃ out : List Nat,
        marshalPileupRow scratch exRowC4 = some (out, none) ∧
        ∃ pr2 : pileupRow, unmarshalPileupRow out = some (pr2, none) ∧
          pr2.fieldsPresent &&& baseBit 1 ≠ 0 ∧
          pr2.payload.perRead.get 1 = []) :=
  ⟨⟨by decide, by decide, by decide⟩,
    claim4_emptyList exRowC4 1 (by decide) (by decide) (by decide)⟩

/-- C5: when a canonical base's presence bit is unset, the in-memory
contents of that base's list are ignored: the encoder's output (for every
scratch buffer) is identical to that for the same row with that list
emptied, the emitted bytes are identical, and the decoded row has an empty
list for that base. -/
theorem claim5_absentIgnored (pr : pileupRow) (b : Fin 4) (h : wfRow pr)
    (hbit : pr.fieldsPresent &&& baseBit b = 0) :
    (∀ scratch : List Nat,
        marshalPileupRow scratch pr =
          marshalPileupRow scratch { pr with payload :=
            { pr.payload with perRead := pr.payload.perRead.set b [] } }) ∧
    encBytes pr = encBytes { pr with payload :=
      { pr.payload with perRead := pr.payload.perRead.set b [] } } ∧
    ∀ scratch : List Nat, ∃ out : List Nat,
      marshalPileupRow scratch pr = some (out, none) ∧
      ∃ pr2 : pileupRow, unmarshalPileupRow out = some (pr2, none) ∧
        pr2.payload.perRead.get b = [] := by
  have he := encBytes_set_irrel pr b [] hbit
  have hq := bytesReq_set_irrel pr b [] hbit
  refine ⟨?_, he.symm, ?_⟩
  · intro scratch
    rw [marshalPileupRow_eq, marshalPileupRow_eq, he, hq]
  · intro scratch
    refine ⟨encBytes pr ++ scratch.drop (bytesReq pr),
      marshalPileupRow_eq scratch pr,
      normalizeRow pr, unmarshal_encBytes pr h _, ?_⟩
    rw [normalizeRow_get, if_neg (by simp [hbit])]

theorem claim5_absentIgnored_witness :
    (wfRow exRowC5 ∧ exRowC5.fieldsPresent &&& baseBit 0 = 0) ∧
    ((∀ scratch : List Nat,
        marshalPileupRow scratch exRowC5 =
          marshalPileupRow scratch { exRowC5 with payload :=
            { exRowC5.payload with
              perRead := exRowC5.payload.perRead.set 0 [] } }) ∧
      encBytes exRowC5 = encBytes { exRowC5 with payload :=
        { exRowC5.payload with
          perRead := exRowC5.payload.perRead.set 0 [] } } ∧
      ∀ scratch : List Nat, ∃ out : List Nat,
        marshalPileupRow scratch exRowC5 = some (out, none) ∧
        ∃ pr2 : pileupRow, unmarshalPileupRow out = some (pr2, none) ∧
          pr2.payload.perRead.get 0 = []) :=
  ⟨⟨by decide, by decide⟩,
    claim5_absentIgnored exRowC5 0 (by decide) (by decide)⟩

/-- C6: the decoder performs no length validation and has no error path for
truncated input: on any buffer shorter than the 16-byte header — and on the
20-byte buffer `c6truncBuf` whose stored per-read list length (5) exceeds
the bytes remaining — it does not return a `DecodeTruncated`-style error;
instead the out-of-bounds slice access in `cutAndAdvance` is reached
(modelled as `none`, a panic). -/
theorem claim6_truncated (buf : List Nat) (h : buf.length < 16) :
    unmarshalPileupRow buf = none ∧
      unmarshalPileupRow c6truncBuf = none := by
  constructor
  · unfold unmarshalPileupRow
    have hcut : cutAndAdvance 0 buf 16 = none := by
      unfold cutAndAdvance
      rw [if_neg (by omega)]
    rw [hcut]
    rfl
  · decide

theorem claim6_truncated_witness :
    ([] : List Nat).length < 16 ∧
      (unmarshalPileupRow [] = none ∧
        unmarshalPileupRow c6truncBuf = none) :=
  ⟨by decide, claim6_truncated [] (by decide)⟩

/-- C7: encoding cannot fail: for every row and scratch buffer,
`marshalPileupRow` neither panics (it returns `some`) nor returns a non-nil
error (the error component is `none`). -/
theorem claim7_noError (scratch : List Nat) (pr : pileupRow) :
    ∃ out : List Nat, marshalPileupRow scratch pr = some (out, none) :=
  ⟨encBytes pr ++ scratch.drop (bytesReq pr),
    marshalPileupRow_eq scratch pr⟩

/-- C8: the encoder never mutates its input row: the row component threaded
through the encoder state is unchanged when the encoder finishes. -/
theorem claim8_noMutation (scratch : List Nat) (pr : pileupRow) :
    ∃ st : EncState, marshalPileupRowSt scratch pr = some st ∧
      st.pr = pr :=
  ⟨_, marshalPileupRowSt_eq scratch pr, rfl⟩

/-- C9: the returned slice is the working buffer unsliced: its length is
`max (scratch length) (bytesReq)` — the scratch's full length when the
scratch is large enough, exactly `bytesReq` when a fresh buffer was
allocated; the bytes beyond `bytesReq` are the scratch's own bytes,
unchanged; the written prefix of length `bytesReq` is the encoding. -/
theorem claim9_bufferReuse (scratch : List Nat) (pr : pileupRow) :
    ∃ out : List Nat, marshalPileupRow scratch pr = some (out, none) ∧
      out.length = max scratch.length (bytesReq pr) ∧
      List.drop (bytesReq pr) out = List.drop (bytesReq pr) scratch ∧
      List.take (bytesReq pr) out = encBytes pr := by
  refine ⟨encBytes pr ++ scratch.drop (bytesReq pr),
    marshalPileupRow_eq scratch pr, ?_, ?_, ?_⟩
  · rw [List.length_append, List.length_drop, encBytes_length]
    omega
  · rw [← encBytes_length pr, List.drop_left]
  · rw [← encBytes_length pr, List.take_left]

/-- C10: bits 5..31 of `fieldsPresent` are inert but preserved: replacing
the word by any `fp2` with the same low 5 bits changes only the first four
header bytes of the encoding, leaves the required size unchanged, and an
encode/decode round trip returns `fp2` verbatim with the same payload as
for the original row. -/
theorem claim10_highBits (pr : pileupRow) (fp2 : Nat)
    (hlow : fp2 &&& 31 = pr.fieldsPresent &&& 31)
    (hwf : wfRow (withFields pr fp2)) :
    encBytes (withFields pr fp2) = putUint32LE fp2 ++ (encBytes pr).drop 4 ∧
    bytesReq (withFields pr fp2) = bytesReq pr ∧
    ∀ scratch : List Nat, ∃ out : List Nat,
      marshalPileupRow scratch (withFields pr fp2) = some (out, none) ∧
      ∃ pr2 : pileupRow, unmarshalPileupRow out = some (pr2, none) ∧
        pr2.fieldsPresent = fp2 ∧
        pr2.payload = (normalizeRow pr).payload := by
  refine ⟨encBytes_withFields pr fp2 hlow,
    bytesReq_withFields pr fp2 hlow, ?_⟩
  intro scratch
  exact ⟨encBytes (withFields pr fp2) ++
      scratch.drop (bytesReq (withFields pr fp2)),
    marshalPileupRow_eq scratch _,
    normalizeRow (withFields pr fp2),
    unmarshal_encBytes _ hwf _, rfl,
    normalizeRow_withFields_payload pr fp2 hlow⟩

theorem claim10_highBits_witness :
    ((2147483679 : Nat) &&& 31 = exRow.fieldsPresent &&& 31 ∧
      wfRow (withFields exRow 2147483679)) ∧
    (encBytes (withFields exRow 2147483679) =
        putUint32LE 2147483679 ++ (encBytes exRow).drop 4 ∧
      bytesReq (withFields exRow 2147483679) = bytesReq exRow ∧
      ∀ scratch : List Nat, ∃ out : List Nat,
        marshalPileupRow scratch (withFields exRow 2147483679) =
          some (out, none) ∧
        ∃ pr2 : pileupRow, unmarshalPileupRow out = some (pr2, none) ∧
          pr2.fieldsPresent = 2147483679 ∧
          pr2.payload = (normalizeRow exRow).payload) :=
  ⟨⟨by decide, by decide⟩,
    claim10_highBits exRow 2147483679 (by decide) (by decide)⟩

end PileupSnp
